import Mathlib

/-!
Verification of the CIF-based invoice classifier (`src/app.py`).

The development shallowly embeds the classification core of the program:

* `esSeparador`, `limpiar`    — the preprocessing `re.sub(r'[\s._-]', '', texto)`;
* `esLetraCif`, `esDigito`    — the character classes of the regex `[ABG]\d{8}`
                                 compiled with `re.IGNORECASE`;
* `findallCif`, `findall`     — `re.findall` semantics for that pattern
                                 (left-to-right scan, non-overlapping matches);
* `buscar_cifs`               — uppercase + de-duplicate, the pure tail of
                                 `buscar_cif_en_pdf`;
* `buscar_cif_en_pdf`         — the whole extraction, where the outcome of
                                 opening/reading the PDF with pdfplumber is an
                                 `Except` value (the `try/except` returns `[]`
                                 on any read error);
* `CIFS_LIST`, `clasificar`   — the destination decision of
                                 `procesar_y_clasificar` (lines 92-107);
* `splitextBase`, `esPdf`     — `os.path.splitext` base names (for filenames
                                 without path separators) and the
                                 `filename.lower().endswith('.pdf')` test;
* `moverAsociados`,
  `clasificarYMover`,
  `organizar`                 — the move loop (lines 109-118) as a transition
                                 on a directory state;
* `recortar`, `renombrar`,
  `normalizar`                — the filename-normalization loop (lines 79-85),
                                 with POSIX `os.rename` overwrite semantics;
* `pruneList`                 — the empty-directory removal (lines 120-124);
* `crearZip`                  — the ZIP entry selection (lines 150-156).

Text is modelled as `List Char` over the ASCII fragment the program
manipulates; machine-level details of pdfplumber and the filesystem are
abstracted into explicit inputs, exactly at the boundaries the program itself
treats as opaque.
-/

/-- Whitespace characters, the ASCII interpretation of the regex class
`\s` used in `re.sub(r'[\s._-]', '', ...)` and of `str.strip()`. -/
def esEspacio (c : Char) : Bool :=
  c == ' ' || c == '\t' || c == '\n' || c == '\r' || c == '\x0b' || c == '\x0c'

/-- The character class `[\s._-]` removed from the text before matching
(line 67 of `src/app.py`). -/
def esSeparador (c : Char) : Bool :=
  esEspacio c || c == '.' || c == '_' || c == '-'

/-- `re.sub(r'[\s._-]', '', texto_completo)`: delete every separator
character from the text. -/
def limpiar (texto : List Char) : List Char :=
  texto.filter (fun c => !esSeparador c)

/-- The character class `[ABG]` of the CIF pattern under `re.IGNORECASE`. -/
def esLetraCif (c : Char) : Bool :=
  c == 'A' || c == 'B' || c == 'G' || c == 'a' || c == 'b' || c == 'g'

/-- The character class `\d` of the CIF pattern (ASCII digits). -/
def esDigito (c : Char) : Bool :=
  c.isDigit

/-- `re.findall` for the pattern `[ABG]\d{8}`: scan left to right; at each
position, if the current character is in `[ABG]` and the next eight
characters are digits, emit those nine characters and resume after them,
otherwise advance one character.  The `fuel` argument makes the recursion
structural; `findall` supplies `fuel = length`, which always suffices
because every step consumes at least one character and one unit of fuel. -/
def findallCif : Nat → List Char → List (List Char)
  | 0, _ => []
  | _ + 1, [] => []
  | fuel + 1, c :: resto =>
    if esLetraCif c && decide (8 ≤ resto.length) && (resto.take 8).all esDigito then
      (c :: resto.take 8) :: findallCif fuel (resto.drop 8)
    else
      findallCif fuel resto

/-- `patron_cif.findall texto`. -/
def findall (texto : List Char) : List (List Char) :=
  findallCif texto.length texto

/-- `list(set(match.upper() for match in matches))` applied to the matches of
the cleaned text: the order of the resulting list is arbitrary in the
program (Python set iteration); here it is the order of first occurrence,
which is one admissible order.  All claims about the classifier are proved
for every order. -/
def buscar_cifs (texto : List Char) : List String :=
  ((findall (limpiar texto)).map (fun m => String.mk (m.map Char.toUpper))).dedup

/-- `buscar_cif_en_pdf`: the pdfplumber read of the file either fails
(`Except.error`, any exception message) or yields the concatenated text of
all pages (`Except.ok`).  The `try/except` at lines 57-65 turns every read
failure into the empty result. -/
def buscar_cif_en_pdf (lectura : Except String (List Char)) : List String :=
  match lectura with
  | Except.error _ => []
  | Except.ok texto => buscar_cifs texto

/-- The fixed list `CIFS_LIST` of recognized CIFs (lines 44-48). -/
def CIFS_LIST : List String :=
  ["B85536134", "A80652928", "B84425131", "A81989360",
   "B81500043", "A79492286", "G83844316", "A81944720",
   "B60924131", "B47384649", "A31604903"]

/-- `UNIDENTIFIED_FOLDER_NAME` (line 49). -/
def UNIDENTIFIED_FOLDER_NAME : String := "Sin identificar"

/-- The three shapes of destination computed at lines 94-107, as path
components relative to the working directory. -/
inductive Destino where
  | sinIdentificar : Destino
  | unico (cif : String) : Destino
  | doble (principal secundario : String) : Destino
deriving DecidableEq, Repr

/-- The destination decision of `procesar_y_clasificar` (lines 92-107):
filter the extracted codes by membership in `CIFS_LIST`; if none remain the
destination is the unidentified folder; otherwise the first recognized code
is the primary, and the first extracted code different from it (recognized
or not), when it exists, is the secondary sub-folder. -/
def clasificar (cifs_encontrados : List String) : Destino :=
  let cifs_principales := cifs_encontrados.filter (fun c => decide (c ∈ CIFS_LIST))
  if cifs_principales = [] then
    Destino.sinIdentificar
  else
    let cif_principal := cifs_principales.headI
    let otros_cifs := cifs_encontrados.filter (fun c => decide (c ≠ cif_principal))
    if otros_cifs = [] then
      Destino.unico cif_principal
    else
      Destino.doble cif_principal otros_cifs.headI

/-- The path components (relative to the working directory) of a
destination, as assembled by `os.path.join` at lines 96, 103 and 106. -/
def destinoComponentes (d : Destino) : List String :=
  match d with
  | Destino.sinIdentificar => [UNIDENTIFIED_FOLDER_NAME]
  | Destino.unico cif => [cif]
  | Destino.doble p s => [p, s]

/-- Claim C4: a PDF that cannot be opened or parsed produces the empty
extraction result — the `try/except` never lets the exception reach the
caller — and the classifier then routes the document to the unidentified
folder. -/
theorem lectura_fallida_sin_identificar (msg : String) :
    buscar_cif_en_pdf (Except.error msg) = [] ∧
    clasificar (buscar_cif_en_pdf (Except.error msg)) = Destino.sinIdentificar := by
  constructor
  · rfl
  · rfl

theorem lectura_fallida_sin_identificar_testigo :
    buscar_cif_en_pdf (Except.error "PDFSyntaxError") = [] ∧
    clasificar (buscar_cif_en_pdf (Except.error "PDFSyntaxError")) = Destino.sinIdentificar :=
  lectura_fallida_sin_identificar "PDFSyntaxError"

/-- Claim C5: when no extracted code belongs to `CIFS_LIST` — however many
unrecognized codes were extracted — the destination is the unidentified
folder. -/
theorem clasificar_sin_reconocidos (cifs : List String)
    (h : ∀ c ∈ cifs, c ∉ CIFS_LIST) :
    clasificar cifs = Destino.sinIdentificar := by
  have hfil : cifs.filter (fun c => decide (c ∈ CIFS_LIST)) = [] := by
    apply List.filter_eq_nil_iff.mpr
    intro c hc
    simpa using h c hc
  simp [clasificar, hfil]

theorem clasificar_sin_reconocidos_testigo :
    clasificar ["Z99999999", "A00000001", "G11111112"] = Destino.sinIdentificar :=
  clasificar_sin_reconocidos ["Z99999999", "A00000001", "G11111112"] (by decide)

/-- Claim C6: a document whose extracted-code set is exactly one recognized
code, with no other matches at all, is classified to that code alone, with
no secondary sub-folder. -/
theorem clasificar_unico_sin_otros (r : String) (hr : r ∈ CIFS_LIST) :
    clasificar [r] = Destino.unico r := by
  have hfil : [r].filter (fun c => decide (c ∈ CIFS_LIST)) = [r] := by
    simp [List.filter, hr]
  have hotros : [r].filter (fun c => decide (c ≠ r)) = [] := by
    simp [List.filter]
  simp [clasificar, hfil, hotros]

theorem clasificar_unico_sin_otros_testigo :
    ("B85536134" ∈ CIFS_LIST) ∧ clasificar ["B85536134"] = Destino.unico "B85536134" :=
  ⟨by decide, clasificar_unico_sin_otros "B85536134" (by decide)⟩

/-- Claim C1: when the extracted codes contain exactly one recognized code
`r` and at least one other code, the destination is `r/<s>` where `s` is the
first element of the full extracted list different from `r`; `s` need not
itself be recognized (the witness uses an unrecognized secondary). -/
theorem clasificar_reconocido_con_otro (cifs : List String) (r : String)
    (hr : cifs.filter (fun c => decide (c ∈ CIFS_LIST)) = [r])
    (hotro : ∃ o ∈ cifs, o ≠ r) :
    ∃ s, (cifs.filter (fun c => decide (c ≠ r))).head? = some s ∧
      clasificar cifs = Destino.doble r s ∧ s ∈ cifs ∧ s ≠ r := by
  obtain ⟨o, ho, hne⟩ := hotro
  have hmem : o ∈ cifs.filter (fun c => decide (c ≠ r)) := by
    simp [List.mem_filter, ho, hne]
  obtain ⟨s, resto, hs⟩ : ∃ s resto, cifs.filter (fun c => decide (c ≠ r)) = s :: resto := by
    cases hfil : cifs.filter (fun c => decide (c ≠ r)) with
    | nil => rw [hfil] at hmem; cases hmem
    | cons s resto => exact ⟨s, resto, rfl⟩
  have hforall : ¬ ∀ a ∈ cifs, a = r := fun hall => hne (hall o ho)
  refine ⟨s, by rw [hs]; rfl, ?_, ?_, ?_⟩
  · have hs2 : cifs.filter (fun c => !decide (c = r)) = s :: resto := by
      simpa using hs
    simp [clasificar, hr, hs2, hforall]
  · have : s ∈ cifs.filter (fun c => decide (c ≠ r)) := by rw [hs]; exact List.mem_cons_self s resto
    exact (List.mem_filter.mp this).1
  · have : s ∈ cifs.filter (fun c => decide (c ≠ r)) := by rw [hs]; exact List.mem_cons_self s resto
    simpa using (List.mem_filter.mp this).2

theorem clasificar_reconocido_con_otro_testigo :
    ∃ s, ((["A80652928", "Z99999999"].filter (fun c => decide (c ≠ "A80652928"))).head? = some s ∧
      clasificar ["A80652928", "Z99999999"] = Destino.doble "A80652928" s ∧
      s ∈ ["A80652928", "Z99999999"] ∧ s ≠ "A80652928") :=
  clasificar_reconocido_con_otro ["A80652928", "Z99999999"] "A80652928"
    (by decide) ⟨"Z99999999", by decide, by decide⟩

/-- A node of the working-directory tree: a file or a directory with its
children.  Only the shape matters for the empty-directory cleanup. -/
inductive FTree where
  | file (nombre : String) : FTree
  | dir (nombre : String) (hijos : List FTree) : FTree

/-- The cleanup at lines 120-124: `os.walk(base_dir, topdown=False)` visits
every subdirectory deepest first and removes it when `os.listdir` finds it
empty at visit time, so a directory whose children were all just removed is
removed too.  `pruneList` maps that over the children of the working
directory root (the root itself is excluded by `dirpath != base_dir`):
files are kept, and a subdirectory is kept exactly when its recursively
pruned children are non-empty. -/
def pruneList : List FTree → List FTree
  | [] => []
  | FTree.file n :: resto => FTree.file n :: pruneList resto
  | FTree.dir n hijos :: resto =>
    match pruneList hijos with
    | [] => pruneList resto
    | h :: hs => FTree.dir n (h :: hs) :: pruneList resto

/-- Key step for idempotence, by strong induction on the size of the
forest: pruning an already-pruned forest changes nothing. -/
theorem pruneList_idem_aux :
    ∀ (n : Nat) (l : List FTree), sizeOf l ≤ n → pruneList (pruneList l) = pruneList l := by
  intro n
  induction n with
  | zero =>
    intro l hl
    have h1 : 1 ≤ sizeOf l := by cases l <;> simp; omega
    exact absurd hl (by omega)
  | succ n ih =>
    intro l hl
    match l with
    | [] => simp [pruneList]
    | FTree.file nm :: resto =>
      have hresto : sizeOf resto ≤ n := by simp at hl; omega
      simp only [pruneList]
      rw [ih resto hresto]
    | FTree.dir nm hijos :: resto =>
      have hresto : sizeOf resto ≤ n := by simp at hl; omega
      have hhijos : sizeOf hijos ≤ n := by simp at hl; omega
      cases hph : pruneList hijos with
      | nil =>
        simp only [pruneList, hph]
        exact ih resto hresto
      | cons h hs =>
        simp only [pruneList, hph]
        have hph2 : pruneList (h :: hs) = h :: hs := by
          rw [← hph]; exact ih hijos hhijos
        simp only [pruneList, hph2]
        rw [ih resto hresto]

/-- Claim C8: Prune is idempotent.  `l` is the list of children of the
working-directory root (the root itself is never removed); a second run of
the cleanup returns exactly the tree the first run produced, and — the
model being a total function — the second run completes without error on
the already-pruned tree. -/
theorem prune_idempotente (l : List FTree) :
    pruneList (pruneList l) = pruneList l :=
  pruneList_idem_aux (sizeOf l) l (Nat.le_refl _)

theorem prune_idempotente_testigo :
    pruneList (pruneList
      [FTree.dir "B85536134" [FTree.file "f1.pdf"],
       FTree.dir "A80652928" [FTree.dir "Z99999999" []],
       FTree.dir "Sin identificar" []]) =
    pruneList
      [FTree.dir "B85536134" [FTree.file "f1.pdf"],
       FTree.dir "A80652928" [FTree.dir "Z99999999" []],
       FTree.dir "Sin identificar" []] :=
  prune_idempotente
    [FTree.dir "B85536134" [FTree.file "f1.pdf"],
     FTree.dir "A80652928" [FTree.dir "Z99999999" []],
     FTree.dir "Sin identificar" []]

/-- `os.path.splitext(nombre)[0]` for a filename with no path separator:
split at the last dot, unless every character before that dot is itself a
dot (Python treats a leading run of dots as part of the name, so
`".pdf"` has base name `".pdf"`). -/
def splitextBase (s : List Char) : List Char :=
  let r := s.reverse
  let r1 := r.takeWhile (fun c => !(c == '.'))
  if r1.length = r.length then s
  else
    let r2 := r.drop (r1.length + 1)
    if r2.any (fun c => !(c == '.')) then r2.reverse else s

/-- Base name of a filename, `os.path.splitext(f)[0]`. -/
def baseDe (nombre : String) : String :=
  String.mk (splitextBase nombre.data)

/-- `filename.lower().endswith('.pdf')` (line 89). -/
def esPdf (nombre : String) : Bool :=
  decide ((nombre.data.map Char.toLower).reverse.take 4 = ['f', 'd', 'p', '.'])

/-- The files of the working directory during Classify&Move: `base` is the
list of regular files directly in the working directory (directories are
never moved, by the `os.path.isfile` guard at line 117), and `colocados`
records each moved file with the destination (path components relative to
the working directory) it was moved to. -/
structure DirState where
  base : List String
  colocados : List (String × List String)

/-- The move loop at lines 113-118 for one PDF: every file currently in
the working directory whose `splitext` base name equals the PDF's base name
(the PDF itself included) is moved to the destination folder. -/
def moverAsociados (pdf : String) (destino : List String) (s : DirState) : DirState :=
  { base := s.base.filter (fun f => !decide (baseDe f = baseDe pdf)),
    colocados := s.colocados ++
      (s.base.filter (fun f => decide (baseDe f = baseDe pdf))).map (fun f => (f, destino)) }

/-- The outer loop at lines 88-118 over the snapshot list of PDF filenames:
each PDF is classified (`destinoDe` abstracts Extractor→Matcher→Classifier,
evaluated at processing time) and its group of files is moved. -/
def clasificarYMover (pdfs : List String) (destinoDe : String → List String)
    (s : DirState) : DirState :=
  match pdfs with
  | [] => s
  | pdf :: resto => clasificarYMover resto destinoDe (moverAsociados pdf (destinoDe pdf) s)

/-- The snapshot of PDFs taken by `os.listdir` at line 88: the files of the
working directory whose lower-cased name ends in `.pdf`. -/
def pdfsDe (s : DirState) : List String :=
  s.base.filter esPdf

/-- The whole Classify&Move phase of `procesar_y_clasificar`. -/
def organizar (destinoDe : String → List String) (s : DirState) : DirState :=
  clasificarYMover (pdfsDe s) destinoDe s

theorem clasificarYMover_append (l1 l2 : List String) (d : String → List String)
    (s : DirState) :
    clasificarYMover (l1 ++ l2) d s = clasificarYMover l2 d (clasificarYMover l1 d s) := by
  induction l1 generalizing s with
  | nil => rfl
  | cons p resto ih => simp only [List.cons_append, clasificarYMover]; exact ih _

theorem colocados_monotono (pdfs : List String) (d : String → List String) (s : DirState)
    (e : String × List String) (he : e ∈ s.colocados) :
    e ∈ (clasificarYMover pdfs d s).colocados := by
  induction pdfs generalizing s with
  | nil => exact he
  | cons p resto ih =>
    simp only [clasificarYMover]
    apply ih
    simp only [moverAsociados]
    exact List.mem_append_left _ he

theorem clasificarYMover_coloca (pdfs : List String) (destinoDe : String → List String)
    (s0 : DirState) (i : Nat) (hi : i < pdfs.length) (f : String)
    (hf : f ∈ (clasificarYMover (pdfs.take i) destinoDe s0).base)
    (hb : baseDe f = baseDe (pdfs.get ⟨i, hi⟩)) :
    (f, destinoDe (pdfs.get ⟨i, hi⟩)) ∈ (clasificarYMover pdfs destinoDe s0).colocados := by
  have key : clasificarYMover pdfs destinoDe s0
      = clasificarYMover (pdfs.drop (i + 1)) destinoDe
          (moverAsociados (pdfs.get ⟨i, hi⟩) (destinoDe (pdfs.get ⟨i, hi⟩))
            (clasificarYMover (pdfs.take i) destinoDe s0)) := by
    conv_lhs => rw [← List.take_append_drop i pdfs]
    rw [clasificarYMover_append]
    rw [List.drop_eq_getElem_cons hi]
    rfl
  rw [key]
  apply colocados_monotono
  simp only [moverAsociados]
  apply List.mem_append_right
  apply List.mem_map.mpr
  refine ⟨f, List.mem_filter.mpr ⟨hf, ?_⟩, rfl⟩
  simpa using hb

/-- Claim C2: in any run of Classify&Move (over the snapshot `pdfsDe s0` of
PDF filenames, with arbitrary classification outcomes `destinoDe`), when
the i-th PDF is processed, every file then present in the working directory
whose base name equals that PDF's base name — whatever its own extension —
is moved into that PDF's destination folder; instantiating `f` with the PDF
itself shows the PDF and all its sidecars end up co-located there. -/
theorem organizar_coloca_asociados (destinoDe : String → List String) (s0 : DirState)
    (i : Nat) (hi : i < (pdfsDe s0).length) (f : String)
    (hf : f ∈ (clasificarYMover ((pdfsDe s0).take i) destinoDe s0).base)
    (hb : baseDe f = baseDe ((pdfsDe s0).get ⟨i, hi⟩)) :
    (f, destinoDe ((pdfsDe s0).get ⟨i, hi⟩)) ∈ (organizar destinoDe s0).colocados :=
  clasificarYMover_coloca (pdfsDe s0) destinoDe s0 i hi f hf hb

/-- A fixed classification outcome used by the witness below. -/
def destinoEjemplo : String → List String := fun _ => ["B85536134"]

theorem organizar_coloca_asociados_testigo :
    ("invoice1.xlsx", ["B85536134"]) ∈
      (organizar destinoEjemplo ⟨["invoice1.pdf", "invoice1.xlsx"], []⟩).colocados :=
  organizar_coloca_asociados destinoEjemplo ⟨["invoice1.pdf", "invoice1.xlsx"], []⟩
    0 (by decide) "invoice1.xlsx" (by decide) (by decide)

theorem esLetraCif_no_digito (c : Char) (h : esLetraCif c = true) : esDigito c = false := by
  simp [esLetraCif] at h
  rcases h with ((((rfl | rfl) | rfl) | rfl) | rfl) | rfl <;> decide

theorem limpiar_append (a b : List Char) : limpiar (a ++ b) = limpiar a ++ limpiar b := by
  simp [limpiar]

/-- Completeness of the scan: whenever the cleaned text contains a
contiguous canonical code `c :: ds` (letter in `[ABG]`, eight digits) the
non-overlapping left-to-right scan emits exactly that code.  No earlier
match can cover position of `c`, because every character of a match after
the first is a digit and `c` is a letter. -/
theorem findallCif_completo (fuel : Nat) :
    ∀ (u ds v : List Char) (c : Char),
      (u ++ (c :: ds) ++ v).length ≤ fuel →
      esLetraCif c = true → ds.length = 8 → ds.all esDigito = true →
      (c :: ds) ∈ findallCif fuel (u ++ (c :: ds) ++ v) := by
  induction fuel with
  | zero =>
    intro u ds v c hlen _ _ _
    exfalso
    simp only [List.length_append, List.length_cons] at hlen
    omega
  | succ fuel ih =>
    intro u ds v c hlen hc hds8 hdsdig
    cases u with
    | nil =>
      rw [List.nil_append, List.cons_append]
      rw [findallCif]
      have hcond : (esLetraCif c && decide (8 ≤ (ds ++ v).length)
          && ((ds ++ v).take 8).all esDigito) = true := by
        rw [List.take_left' hds8, hc, hdsdig]
        have h8 : decide (8 ≤ (ds ++ v).length) = true := by
          apply decide_eq_true
          rw [List.length_append]
          omega
        rw [h8]
        rfl
      rw [if_pos hcond, List.take_left' hds8]
      exact List.mem_cons_self _ _
    | cons x u' =>
      have hforma : (x :: u') ++ (c :: ds) ++ v = x :: (u' ++ (c :: ds) ++ v) := by
        simp
      rw [hforma]
      rw [hforma] at hlen
      have hlcola : (u' ++ (c :: ds) ++ v).length ≤ fuel := by
        simp only [List.length_cons] at hlen
        omega
      by_cases hcond :
          (esLetraCif x && decide (8 ≤ (u' ++ (c :: ds) ++ v).length)
            && ((u' ++ (c :: ds) ++ v).take 8).all esDigito) = true
      · -- a match fires at `x`; its eight digits cannot reach the letter `c`,
        -- so the code survives intact in the remainder of the scan
        have hall : ((u' ++ (c :: ds) ++ v).take 8).all esDigito = true :=
          (Bool.and_eq_true _ _ |>.mp hcond).2
        have hu8 : 8 ≤ u'.length := by
          by_contra hlt
          push_neg at hlt
          have hcmem : c ∈ (u' ++ (c :: ds) ++ v).take 8 := by
            rw [List.append_assoc, List.take_append_eq_append_take,
              List.take_of_length_le (Nat.le_of_lt hlt)]
            apply List.mem_append_right
            obtain ⟨k, hk⟩ : ∃ k, 8 - u'.length = k + 1 :=
              ⟨8 - u'.length - 1, by omega⟩
            rw [hk, List.cons_append, List.take_succ_cons]
            exact List.mem_cons_self _ _
          have : esDigito c = true := by
            rw [List.all_eq_true] at hall
            exact hall c hcmem
          rw [esLetraCif_no_digito c hc] at this
          cases this
        have hdrop : (u' ++ (c :: ds) ++ v).drop 8 = (u'.drop 8) ++ (c :: ds) ++ v := by
          rw [List.append_assoc, List.drop_append_eq_append_drop,
            Nat.sub_eq_zero_of_le hu8, List.drop_zero, List.append_assoc]
        rw [findallCif, if_pos hcond]
        apply List.mem_cons_of_mem
        rw [hdrop]
        apply ih (u'.drop 8) ds v c ?_ hc hds8 hdsdig
        rw [← hdrop]
        simp only [List.length_drop]
        omega
      · rw [findallCif, if_neg hcond]
        exact ih u' ds v c hlcola hc hds8 hdsdig

/-- Claim C3: for any text of the form `pre ++ w ++ post` where `w` is a
canonical-format code — a letter of `{A,B,G}` in either case (`hc`)
followed by exactly eight digits (`hlen`, `hds`) — with arbitrary
whitespace, `.`, `_`, `-` interspersed between its characters (`hw`: the
separator-stripping of `w` yields exactly the code), the matcher's result
set contains that code uppercased. -/
theorem matcher_encuentra_cif (pre w post : List Char) (c : Char) (ds : List Char)
    (hw : limpiar w = c :: ds) (hc : esLetraCif c = true)
    (hlen : ds.length = 8) (hds : ds.all esDigito = true) :
    String.mk ((c :: ds).map Char.toUpper) ∈ buscar_cifs (pre ++ w ++ post) := by
  have hlimpio : limpiar (pre ++ w ++ post) = limpiar pre ++ (c :: ds) ++ limpiar post := by
    rw [limpiar_append, limpiar_append, hw]
  unfold buscar_cifs
  rw [List.mem_dedup]
  refine List.mem_map.mpr ⟨c :: ds, ?_, rfl⟩
  rw [hlimpio]
  exact findallCif_completo _ (limpiar pre) ds (limpiar post) c (Nat.le_refl _) hc hlen hds

theorem matcher_encuentra_cif_testigo :
    String.mk (('b' :: "85536134".data).map Char.toUpper) ∈
      buscar_cifs ("Факtura NIF: ".data ++ "b 8553_61-34".data ++ " total 100".data) :=
  matcher_encuentra_cif "Факtura NIF: ".data "b 8553_61-34".data " total 100".data
    'b' "85536134".data (by decide) (by decide) (by decide) (by decide)

/-- `filename.strip()` (line 82): remove leading and trailing whitespace. -/
def recortar (s : List Char) : List Char :=
  ((s.dropWhile esEspacio).reverse.dropWhile esEspacio).reverse

/-- POSIX `os.rename(vieja, nueva)` on a directory modelled as a list of
`(name, content)` pairs: the file named `vieja` now bears the name `nueva`,
and a pre-existing file named `nueva` is silently replaced (Unix rename
semantics, which is what the deployment platform provides). -/
def renombrar (dir : List (String × Nat)) (vieja nueva : String) : List (String × Nat) :=
  (dir.filter (fun e => !decide (e.1 = nueva))).map
    (fun e => if e.1 = vieja then (nueva, e.2) else e)

/-- The Normalize loop at lines 79-85: iterate over the snapshot of
filenames taken by `os.listdir`; whenever stripping whitespace changes a
name, rename the file in place. -/
def normalizar (listado : List String) (dir : List (String × Nat)) : List (String × Nat) :=
  match listado with
  | [] => dir
  | nombre :: resto =>
    let limpio := String.mk (recortar nombre.data)
    if nombre ≠ limpio then normalizar resto (renombrar dir nombre limpio)
    else normalizar resto dir

/-- The whole Normalize phase: the listing snapshot is the directory's
current names. -/
def normalizarDir (dir : List (String × Nat)) : List (String × Nat) :=
  normalizar (dir.map Prod.fst) dir

/-- Claim C7 is refuted by the code: with the two files `" a.pdf"`
(content 1) and `"a.pdf"` (content 2) in the working directory, Normalize
renames `" a.pdf"` to `"a.pdf"`, silently replacing the existing file —
after the phase only content 1 survives and content 2 has been destroyed,
which contradicts the stated policy that no existing file's content is
lost.  (The spec itself flags that the reference behavior does not guard
against this, so the code, not the claim, is at fault.) -/
theorem normalizar_destruye_archivo :
    normalizarDir [(" a.pdf", 1), ("a.pdf", 2)] = [("a.pdf", 1)] ∧
    ∀ e ∈ normalizarDir [(" a.pdf", 1), ("a.pdf", 2)], e.2 ≠ 2 := by
  decide

/-- The ZIP creation at lines 150-156: the walk visits every file of the
working-directory tree — given here as pairs of (containing-directory path
components relative to the root, filename); the freshly created archive
itself appears in the walk as `([], "facturas_clasificadas.zip")` — and
adds an entry (the file's relative path) for every file whose *filename*
is not `facturas_clasificadas.zip`. -/
def crearZip (archivos : List (List String × String)) : List (List String) :=
  (archivos.filter (fun a => !decide (a.2 = "facturas_clasificadas.zip"))).map
    (fun a => a.1 ++ [a.2])

/-- Counterexample to claim C9 as stated: a file that is *not* the archive
but happens to be named `facturas_clasificadas.zip` — e.g. uploaded as a
sidecar of `facturas_clasificadas.pdf` and classified into folder
`B85536134` — remains in the tree after Prune, yet the archive contains no
entry for it, because the exclusion check compares filenames anywhere in
the tree, not the archive's own path. -/
theorem crear_zip_omite_homonimo :
    (["B85536134"], "facturas_clasificadas.zip") ∈
      ([(([] : List String), "facturas_clasificadas.zip"),
        (["B85536134"], "facturas_clasificadas.zip"),
        (["B85536134"], "factura1.pdf")] : List (List String × String)) ∧
    ["B85536134", "facturas_clasificadas.zip"] ∉
      crearZip [(([] : List String), "facturas_clasificadas.zip"),
        (["B85536134"], "facturas_clasificadas.zip"),
        (["B85536134"], "factura1.pdf")] := by
  decide

/-- Claim C9, amended: the archive contains exactly the files of the tree
whose filename is not `facturas_clasificadas.zip`, each with entry path
equal to its path relative to the working-directory root; in particular
every entry's filename differs from the archive's own, so the archive
never includes itself — but any *other* file bearing that name is excluded
as well. -/
theorem crear_zip_correcto (archivos : List (List String × String)) :
    (∀ a ∈ archivos, a.2 ≠ "facturas_clasificadas.zip" → a.1 ++ [a.2] ∈ crearZip archivos) ∧
    (∀ e ∈ crearZip archivos,
      ∃ a, a ∈ archivos ∧ a.2 ≠ "facturas_clasificadas.zip" ∧ e = a.1 ++ [a.2]) := by
  constructor
  · intro a ha hne
    apply List.mem_map.mpr
    exact ⟨a, List.mem_filter.mpr ⟨ha, by simpa using hne⟩, rfl⟩
  · intro e he
    obtain ⟨a, haf, hae⟩ := List.mem_map.mp he
    have hm := List.mem_filter.mp haf
    exact ⟨a, hm.1, by simpa using hm.2, hae.symm⟩

theorem crear_zip_correcto_testigo :
    ["B85536134", "factura1.pdf"] ∈
      crearZip [(([] : List String), "facturas_clasificadas.zip"),
        (["B85536134"], "factura1.pdf")] :=
  (crear_zip_correcto [(([] : List String), "facturas_clasificadas.zip"),
    (["B85536134"], "factura1.pdf")]).1
    (["B85536134"], "factura1.pdf") (by decide) (by decide)

/-- The shape every extracted code has: one uppercase letter of `{A,B,G}`
followed by exactly eight ASCII digits. -/
def esCifValido (s : String) : Bool :=
  decide (s.data.length = 9) &&
  (s.data.headI == 'A' || s.data.headI == 'B' || s.data.headI == 'G') &&
  s.data.tail.all esDigito

/-- A string that is safe as a single path component strictly inside the
working directory: non-empty, not a dot-directory, and free of path
separators and NUL. -/
def componenteSegura (s : String) : Bool :=
  decide (s ≠ "") && decide (s ≠ ".") && decide (s ≠ "..") &&
  s.data.all (fun c => decide (c ≠ '/') && decide (c ≠ '\\') && decide (c.toNat ≠ 0))

theorem toUpper_digito (c : Char) (h : esDigito c = true) : Char.toUpper c = c := by
  simp [esDigito, Char.isDigit] at h
  unfold Char.toUpper
  rw [if_neg]
  intro hcon
  obtain ⟨h1, h2⟩ := hcon
  obtain ⟨ha, hb⟩ := h
  have hb' : c.val.toNat ≤ 57 := by
    simp [UInt32.le_def, BitVec.le_def] at hb
    exact hb
  simp [Char.toNat] at h1
  omega

theorem toUpper_letra (c : Char) (h : esLetraCif c = true) :
    (Char.toUpper c == 'A' || Char.toUpper c == 'B' || Char.toUpper c == 'G') = true := by
  simp [esLetraCif] at h
  rcases h with ((((rfl | rfl) | rfl) | rfl) | rfl) | rfl <;> decide

/-- Every match emitted by the scan is a letter of the pattern alphabet
followed by exactly eight digits. -/
theorem findallCif_valido (fuel : Nat) :
    ∀ (t m : List Char), m ∈ findallCif fuel t →
      ∃ c ds, m = c :: ds ∧ esLetraCif c = true ∧ ds.length = 8 ∧ ds.all esDigito = true := by
  induction fuel with
  | zero =>
    intro t m hm
    simp [findallCif] at hm
  | succ fuel ih =>
    intro t m hm
    cases t with
    | nil => simp [findallCif] at hm
    | cons x resto =>
      rw [findallCif] at hm
      by_cases hcond :
          (esLetraCif x && decide (8 ≤ resto.length) && (resto.take 8).all esDigito) = true
      · rw [if_pos hcond] at hm
        simp only [Bool.and_eq_true] at hcond
        obtain ⟨⟨hx, h8⟩, hall⟩ := hcond
        rcases List.mem_cons.mp hm with hm1 | hm2
        · refine ⟨x, resto.take 8, hm1, hx, ?_, hall⟩
          rw [List.length_take]
          have := of_decide_eq_true h8
          omega
        · exact ih _ _ hm2
      · rw [if_neg hcond] at hm
        exact ih _ _ hm

theorem all_digito_map_toUpper (ds : List Char) (h : ds.all esDigito = true) :
    (ds.map Char.toUpper).all esDigito = true := by
  rw [List.all_eq_true] at h ⊢
  intro x hx
  obtain ⟨d, hd, rfl⟩ := List.mem_map.mp hx
  rw [toUpper_digito d (h d hd)]
  exact h d hd

/-- Every string returned by the matcher has the canonical CIF shape. -/
theorem buscar_cifs_valido (texto : List Char) (s : String)
    (hs : s ∈ buscar_cifs texto) : esCifValido s = true := by
  unfold buscar_cifs at hs
  rw [List.mem_dedup] at hs
  obtain ⟨m, hm, rfl⟩ := List.mem_map.mp hs
  obtain ⟨c, ds, rfl, hc, hds8, hdsdig⟩ := findallCif_valido _ _ _ hm
  unfold esCifValido
  have hdata : (String.mk ((c :: ds).map Char.toUpper)).data
      = Char.toUpper c :: ds.map Char.toUpper := rfl
  rw [hdata]
  simp only [List.headI, List.tail, List.length_cons, List.length_map]
  rw [toUpper_letra c hc, all_digito_map_toUpper ds hdsdig]
  rw [hds8]
  rfl

theorem letra_ABG_segura (c : Char) (h : (c == 'A' || c == 'B' || c == 'G') = true) :
    (decide (c ≠ '/') && decide (c ≠ '\\') && decide (c.toNat ≠ 0)) = true := by
  simp at h
  rcases h with (rfl | rfl) | rfl <;> decide

theorem digito_segura (c : Char) (h : esDigito c = true) :
    (decide (c ≠ '/') && decide (c ≠ '\\') && decide (c.toNat ≠ 0)) = true := by
  have h1 : c ≠ '/' := by intro hcq; rw [hcq] at h; exact absurd h (by decide)
  have h2 : c ≠ '\\' := by intro hcq; rw [hcq] at h; exact absurd h (by decide)
  have hd := h
  simp [esDigito, Char.isDigit] at hd
  obtain ⟨ha, hb⟩ := hd
  have ha' : 48 ≤ c.val.toNat := by
    simp [UInt32.le_def, BitVec.le_def] at ha
    exact ha
  have h3 : c.toNat ≠ 0 := by
    simp [Char.toNat]
    omega
  simp [h1, h2, h3]

/-- A string of the canonical CIF shape is a safe path component. -/
theorem cif_valido_componente_segura (s : String) (h : esCifValido s = true) :
    componenteSegura s = true := by
  unfold esCifValido at h
  simp only [Bool.and_eq_true] at h
  obtain ⟨⟨hlen, hhead⟩, htail⟩ := h
  have hlen' : s.data.length = 9 := of_decide_eq_true hlen
  unfold componenteSegura
  have h1 : s ≠ "" := by
    intro hq; rw [hq] at hlen'; simp at hlen'
  have h2 : s ≠ "." := by
    intro hq; rw [hq] at hlen'; simp at hlen'
  have h3 : s ≠ ".." := by
    intro hq; rw [hq] at hlen'; simp at hlen'
  have h4 : s.data.all (fun c => decide (c ≠ '/') && decide (c ≠ '\\')
      && decide (c.toNat ≠ 0)) = true := by
    rw [List.all_eq_true]
    intro x hx
    cases hdata : s.data with
    | nil => rw [hdata] at hlen'; simp at hlen'
    | cons u l =>
      rw [hdata] at hx hhead htail
      simp only [List.headI] at hhead
      simp only [List.tail] at htail
      rcases List.mem_cons.mp hx with rfl | hxl
      · exact letra_ABG_segura x hhead
      · rw [List.all_eq_true] at htail
        exact digito_segura x (htail x hxl)
  simp only [Bool.and_eq_true]
  exact ⟨⟨⟨decide_eq_true h1, decide_eq_true h2⟩, decide_eq_true h3⟩, h4⟩

/-- Path components of a classification destination all come from the
extracted-code list or are the fixed unidentified-folder name. -/
theorem headI_filter_mem (p : String → Bool) (l : List String)
    (h : l.filter p ≠ []) : (l.filter p).headI ∈ l := by
  cases hq : l.filter p with
  | nil => exact absurd hq h
  | cons a t =>
    have ha : a ∈ l.filter p := by rw [hq]; exact List.mem_cons_self a t
    exact (List.mem_filter.mp ha).1

theorem destino_componentes_origen (cifs : List String) (comp : String)
    (h : comp ∈ destinoComponentes (clasificar cifs)) :
    comp = UNIDENTIFIED_FOLDER_NAME ∨ comp ∈ cifs := by
  simp only [clasificar] at h
  by_cases h1 : cifs.filter (fun c => decide (c ∈ CIFS_LIST)) = []
  · rw [if_pos h1] at h
    have h' : comp ∈ [UNIDENTIFIED_FOLDER_NAME] := h
    exact Or.inl (List.mem_singleton.mp h')
  · rw [if_neg h1] at h
    have hp : (cifs.filter (fun c => decide (c ∈ CIFS_LIST))).headI ∈ cifs :=
      headI_filter_mem _ cifs h1
    by_cases h2 : cifs.filter
        (fun c => decide (c ≠ (cifs.filter (fun c => decide (c ∈ CIFS_LIST))).headI)) = []
    · rw [if_pos h2] at h
      have h' : comp ∈ [(cifs.filter (fun c => decide (c ∈ CIFS_LIST))).headI] := h
      exact Or.inr (List.mem_singleton.mp h' ▸ hp)
    · rw [if_neg h2] at h
      have h' : comp ∈ [(cifs.filter (fun c => decide (c ∈ CIFS_LIST))).headI,
        (cifs.filter
          (fun c => decide (c ≠ (cifs.filter (fun c => decide (c ∈ CIFS_LIST))).headI))).headI] := h
      rcases List.mem_cons.mp h' with hc | hc
      · exact Or.inr (hc ▸ hp)
      · have hs : (cifs.filter
            (fun c => decide (c ≠ (cifs.filter
              (fun c => decide (c ∈ CIFS_LIST))).headI))).headI ∈ cifs :=
          headI_filter_mem _ cifs h2
        exact Or.inr ((List.mem_singleton.mp hc) ▸ hs)

/-- Claim C10: every path component of the destination computed for any
PDF (any read outcome `lectura`) is either a canonical CIF — nine
characters, no separator, no dot component — or the fixed unidentified
folder name; all are safe path components, so every destination directory
lies strictly inside the working directory. -/
theorem destino_dentro_del_directorio (lectura : Except String (List Char)) (comp : String)
    (h : comp ∈ destinoComponentes (clasificar (buscar_cif_en_pdf lectura))) :
    componenteSegura comp = true := by
  rcases destino_componentes_origen _ _ h with rfl | hmem
  · decide
  · cases lectura with
    | error msg => simp [buscar_cif_en_pdf] at hmem
    | ok texto => exact cif_valido_componente_segura comp (buscar_cifs_valido texto comp hmem)

theorem destino_dentro_del_directorio_testigo :
    componenteSegura "B85536134" = true :=
  destino_dentro_del_directorio (Except.ok "B85536134".data) "B85536134" (by decide)
